import Mathlib

/-!
Shallow embedding of the Antigravity session manager (`session.ts`).

The program keeps a SQLite table `sessions` (keyed by `email`) and reads or
writes two fixed keys of the IDE's `ItemTable` ("antigravityAuthStatus" and
"google.antigravity").  We model the table as a list of rows (the primary key
makes emails pairwise distinct in any reachable state), the live store as the
two optional values, SQL `SELECT ... WHERE email = ?` as `List.find?`,
`UPDATE ... WHERE` as `List.map`, `INSERT` as append and `DELETE` as
`List.filter`.  `JSON.parse` followed by the `.email` field access is external
library behaviour; it is abstracted as a parameter
`parse : String → Option String` (`none` models both a parse exception and a
missing/falsy `email` field of a nonempty string).  `Date.now()` becomes an
explicit `now : Nat` argument.
-/

namespace AGSession

/-- A row of the `sessions` table (interface `Session` in `session.ts`).
The `INSERT` in `syncCurrent` never supplies `name`, hence the option. -/
structure Session where
  email : String
  name : Option String
  auth_status : String
  google_data : String
  last_used : Nat
  created_at : Nat
  updated_at : Nat
deriving DecidableEq

/-- The two `ItemTable` values the program touches: the value stored under
`antigravityAuthStatus` and the one under `google.antigravity`;
`none` models an absent row. -/
structure LiveStore where
  authStatus : Option String
  googleData : Option String
deriving DecidableEq

/-- Return type of `getCurrentSession` in `session.ts`. -/
structure Current where
  email : String
  auth_status : String
  google_data : String
deriving DecidableEq

/-- JavaScript `x?.value || d`: an absent row or an empty-string value both
fall back to the default `d` (the empty string is falsy). -/
def jsOrDefault (v : Option String) (d : String) : String :=
  match v with
  | none => d
  | some s => if s = "" then d else s

/-- `getCurrentSession` (session.ts:49-78): read the auth row; if absent
return null; parse it and extract `email` (a parse error or a falsy email
yields null); the secondary blob defaults to `"{}"`. -/
def getCurrentSession (parse : String → Option String) (live : LiveStore) :
    Option Current :=
  match live.authStatus with
  | none => none
  | some av =>
    match parse av with
    | none => none
    | some email =>
      if email = "" then none
      else some ⟨email, av, jsOrDefault live.googleData "{}"⟩

/-- The `sessions` table. -/
abbrev Repo := List Session

/-- `SELECT * FROM sessions WHERE email = ?` followed by `.get` (first row). -/
def findSession (repo : Repo) (e : String) : Option Session :=
  repo.find? (fun s => s.email = e)

/-- Result of a `syncCurrent` run, following spec section 4.3; in the code the
four branches are the four console messages of session.ts:81-116. -/
inductive SyncResult where
  | NoActiveSession : SyncResult
  | Added : String → SyncResult
  | Updated : String → SyncResult
  | Unchanged : String → SyncResult
deriving DecidableEq

/-- `UPDATE sessions SET auth_status = ?, google_data = ?, updated_at = ?
WHERE email = ?` (session.ts:97-101). -/
def updateBlobs (repo : Repo) (e a g : String) (now : Nat) : Repo :=
  repo.map fun s =>
    if s.email = e then
      { s with auth_status := a, google_data := g, updated_at := now }
    else s

/-- `INSERT INTO sessions ... VALUES (?, ?, ?, 0, now, now)`
(session.ts:108-111); `name` is not supplied. -/
def insertNew (repo : Repo) (c : Current) (now : Nat) : Repo :=
  repo ++ [⟨c.email, none, c.auth_status, c.google_data, 0, now, now⟩]

/-- `syncCurrent` (session.ts:81-116). -/
def syncCurrent (parse : String → Option String) (live : LiveStore)
    (repo : Repo) (now : Nat) : SyncResult × Repo :=
  match getCurrentSession parse live with
  | none => (SyncResult.NoActiveSession, repo)
  | some c =>
    match findSession repo c.email with
    | some existing =>
      if existing.auth_status ≠ c.auth_status ∨
          existing.google_data ≠ c.google_data then
        (SyncResult.Updated c.email, updateBlobs repo c.email c.auth_status c.google_data now)
      else
        (SyncResult.Unchanged c.email, repo)
    | none =>
      (SyncResult.Added c.email, insertNew repo c now)

/-- The SQL ordering `ORDER BY last_used ASC, email ASC` (default BINARY
collation on TEXT agrees with codepoint-lexicographic `≤` on `String`). -/
def keyLE (a b : Session) : Prop :=
  a.last_used < b.last_used ∨ (a.last_used = b.last_used ∧ a.email ≤ b.email)

instance : DecidableRel keyLE := fun a b => by
  unfold keyLE; exact instDecidableOr

instance : IsTotal Session keyLE where
  total a b := by
    unfold keyLE
    rcases Nat.lt_trichotomy a.last_used b.last_used with h | h | h
    · exact Or.inl (Or.inl h)
    · rcases le_total a.email b.email with he | he
      · exact Or.inl (Or.inr ⟨h, he⟩)
      · exact Or.inr (Or.inr ⟨h.symm, he⟩)
    · exact Or.inr (Or.inl h)

instance : IsTrans Session keyLE where
  trans a b c hab hbc := by
    unfold keyLE at *
    rcases hab with h₁ | ⟨e₁, m₁⟩
    · rcases hbc with h₂ | ⟨e₂, _⟩
      · exact Or.inl (h₁.trans h₂)
      · exact Or.inl (e₂ ▸ h₁)
    · rcases hbc with h₂ | ⟨e₂, m₂⟩
      · exact Or.inl (e₁ ▸ h₂)
      · exact Or.inr ⟨e₁.trans e₂, m₁.trans m₂⟩

/-- `SELECT * FROM sessions ORDER BY last_used ASC, email ASC`
(session.ts:122).  With pairwise-distinct emails the sorted permutation is
unique, so the choice of sorting algorithm is immaterial. -/
def orderedSessions (repo : Repo) : List Session :=
  List.insertionSort keyLE repo

/-- `getNextSession` (session.ts:119-146).  `findIndex` returning `-1`
becomes `List.findIdx` returning the length; `if (!currentEmail)` is true for
the empty string as well as for `undefined`. -/
def getNextSession (repo : Repo) (currentEmail : Option String) :
    Option Session :=
  let sessions := orderedSessions repo
  if sessions.length = 0 then none
  else if sessions.length = 1 then sessions[0]?
  else
    match currentEmail with
    | none => sessions[0]?
    | some ce =>
      if ce = "" then sessions[0]?
      else
        let currentIndex := sessions.findIdx (fun s => s.email = ce)
        if currentIndex < sessions.length then
          sessions[(currentIndex + 1) % sessions.length]?
        else sessions[0]?

/-- `loadSession` (session.ts:149-175).  The Boolean records whether the
session was found (`false` means the `❌ Session not found` early return);
on success both live keys are replaced and then
`UPDATE sessions SET last_used = ? WHERE email = ?` runs. -/
def loadSession (repo : Repo) (live : LiveStore) (e : String) (now : Nat) :
    Bool × LiveStore × Repo :=
  match findSession repo e with
  | none => (false, live, repo)
  | some s =>
    (true,
     ⟨some s.auth_status, some s.google_data⟩,
     repo.map fun r => if r.email = e then { r with last_used := now } else r)

/-- `DELETE FROM sessions WHERE email = ?` (session.ts:233). -/
def deleteSession (repo : Repo) (e : String) : Repo :=
  repo.filter (fun s => ¬ s.email = e)

/-- `next` (session.ts:178-197): sync, re-read the current identity, pick the
rotation successor, and load it unless it is absent or equals the current
identity.  `syncCurrent` never writes the live store, so the re-read sees the
same live state. -/
def nextOp (parse : String → Option String) (live : LiveStore) (repo : Repo)
    (now₁ now₂ : Nat) : LiveStore × Repo :=
  let repo₁ := (syncCurrent parse live repo now₁).2
  let current := getCurrentSession parse live
  match getNextSession repo₁ (current.map (·.email)) with
  | none => (live, repo₁)
  | some ns =>
    match current with
    | some c =>
      if ns.email = c.email then (live, repo₁)
      else
        let r := loadSession repo₁ live ns.email now₂
        (r.2.1, r.2.2)
    | none =>
      let r := loadSession repo₁ live ns.email now₂
      (r.2.1, r.2.2)

/-- The successor map induced by `getNextSession` on identities: the email of
the rotation successor of (the session with) email `e`, or `e` itself when the
repository is empty. -/
def rotEmail (repo : Repo) (e : String) : String :=
  match getNextSession repo (some e) with
  | some s => s.email
  | none => e

/-- A sequence of `syncCurrent` invocations against a fixed live store, one
per clock reading in `times`; returns all results and the final table. -/
def syncSeq (parse : String → Option String) (live : LiveStore) (repo : Repo) :
    List Nat → List SyncResult × Repo
  | [] => ([], repo)
  | t :: ts =>
    let r := syncCurrent parse live repo t
    let rest := syncSeq parse live r.2 ts
    (r.1 :: rest.1, rest.2)

/-- Every row's `updated_at` is at most `t`. -/
def allUpdLe (repo : Repo) (t : Nat) : Prop :=
  ∀ s ∈ repo, s.updated_at ≤ t

/-- Row-wise monotonicity of `updated_at` between two table states: any
identity present in both has not seen its `updated_at` decrease. -/
def rowUpdMono (r₁ r₂ : Repo) : Prop :=
  ∀ e s s', findSession r₁ e = some s → findSession r₂ e = some s' →
    s.updated_at ≤ s'.updated_at

/-- The implicit storage invariant: the row's `auth_status` blob parses back
to exactly the row's primary key. -/
def RowOk (parse : String → Option String) (s : Session) : Prop :=
  parse s.auth_status = some s.email

/-- Whole program state: the IDE's live store plus the sessions table. -/
structure St where
  live : LiveStore
  repo : Repo
deriving DecidableEq

/-- One CLI-level operation.  `external` models the IDE itself rewriting its
live store between invocations of the tool. -/
inductive Op where
  | sync : Nat → Op
  | load : String → Nat → Op
  | delete : String → Op
  | next : Nat → Nat → Op
  | external : LiveStore → Op
deriving DecidableEq

/-- State transition of one operation (the repo/live effects of the
corresponding function of `session.ts`). -/
def step (parse : String → Option String) (op : Op) (st : St) : St :=
  match op with
  | Op.sync now => ⟨st.live, (syncCurrent parse st.live st.repo now).2⟩
  | Op.load e now =>
    let r := loadSession st.repo st.live e now
    ⟨r.2.1, r.2.2⟩
  | Op.delete e => ⟨st.live, deleteSession st.repo e⟩
  | Op.next n₁ n₂ =>
    let r := nextOp parse st.live st.repo n₁ n₂
    ⟨r.1, r.2⟩
  | Op.external live => ⟨live, st.repo⟩

/-- Run a list of operations in order. -/
def run (parse : String → Option String) (ops : List Op) (st : St) : St :=
  ops.foldl (fun s op => step parse op s) st

/-- The `Date.now()` readings an operation performs, in order. -/
def opTimes : Op → List Nat
  | Op.sync now => [now]
  | Op.load _ now => [now]
  | Op.delete _ => []
  | Op.next n₁ n₂ => [n₁, n₂]
  | Op.external _ => []

/-- All clock readings of a run, in order. -/
def timesOf (ops : List Op) : List Nat :=
  (ops.map opTimes).flatten

/-- Observable outcome of one CLI invocation: the process exit code, whether
anything was written to stderr (`console.error`), and the final state. -/
structure CliOutcome where
  exitCode : Nat
  errorReported : Bool
  st : St
deriving DecidableEq

/-- `bun session.ts load <arg>` (session.ts:321-327): a missing or empty
argument is a usage error with `process.exit(1)`; otherwise `loadSession`
runs, printing `❌ Session not found` on a miss, and the process then ends
normally (exit code 0). -/
def cliLoad (st : St) (arg : String) (now : Nat) : CliOutcome :=
  if arg = "" then ⟨1, true, st⟩
  else
    let r := loadSession st.repo st.live arg now
    ⟨0, !r.1, ⟨r.2.1, r.2.2⟩⟩

/-- `bun session.ts delete <arg>` (session.ts:329-335): a missing or empty
argument is a usage error with `process.exit(1)`; otherwise the `DELETE`
statement runs and `🗑️ Deleted session` is printed unconditionally — no
error even when no row matched — and the process exits 0. -/
def cliDelete (st : St) (arg : String) : CliOutcome :=
  if arg = "" then ⟨1, true, st⟩
  else ⟨0, false, ⟨st.live, deleteSession st.repo arg⟩⟩

/-! ### Concrete fixtures used to instantiate the theorems -/

/-- A tiny concrete parse function standing in for `JSON.parse(...).email`. -/
def parseW : String → Option String := fun s =>
  if s = "A1" then some "a@x.com"
  else if s = "B1" then some "b@x.com"
  else none

/-- Session fixture with the lowest `last_used`. -/
def wA : Session := ⟨"a@x.com", none, "A1", "{}", 1000, 10, 10⟩

/-- Session fixture with the middle `last_used`. -/
def wB : Session := ⟨"b@x.com", none, "B1", "{}", 2000, 10, 10⟩

/-- Session fixture with the highest `last_used`. -/
def wC : Session := ⟨"c@x.com", none, "C1", "{}", 3000, 10, 10⟩

/-- A three-session table, deliberately stored out of rotation order. -/
def wRepo : Repo := [wC, wA, wB]

/-- A live store whose auth blob `parseW` maps to `a@x.com`. -/
def liveW : LiveStore := ⟨some "A1", some "{}"⟩

/-! ### Lookup lemmas -/

theorem findSession_eq_none {repo : Repo} {e : String} :
    findSession repo e = none ↔ ∀ s ∈ repo, s.email ≠ e := by
  unfold findSession
  rw [List.find?_eq_none]
  simp

theorem findSession_email {repo : Repo} {e : String} {s : Session}
    (h : findSession repo e = some s) : s.email = e := by
  have := List.find?_some h
  simpa using this

theorem findSession_mem {repo : Repo} {e : String} {s : Session}
    (h : findSession repo e = some s) : s ∈ repo :=
  List.mem_of_find?_eq_some h

theorem findSession_append_found {repo : Repo} {e : String} {s : Session}
    (l : List Session) (h : findSession repo e = some s) :
    findSession (repo ++ l) e = some s := by
  unfold findSession at h ⊢
  rw [List.find?_append, h]
  rfl

theorem findSession_append_single {repo : Repo} {e : String} {x : Session}
    (h : findSession repo e = none) (hx : x.email = e) :
    findSession (repo ++ [x]) e = some x := by
  unfold findSession at h ⊢
  rw [List.find?_append, h]
  simp [hx]

theorem findSession_map_email_preserving {f : Session → Session}
    (hf : ∀ s, (f s).email = s.email) (repo : Repo) (e : String) :
    findSession (repo.map f) e = (findSession repo e).map f := by
  unfold findSession
  induction repo with
  | nil => rfl
  | cons a l ih =>
    simp only [List.map_cons]
    by_cases h : a.email = e
    · rw [List.find?_cons_of_pos _ (by simp [hf, h]),
        List.find?_cons_of_pos _ (by simp [h])]
      rfl
    · rw [List.find?_cons_of_neg _ (by simp [hf, h]),
        List.find?_cons_of_neg _ (by simp [h])]
      exact ih

theorem findSession_delete_self (repo : Repo) (d : String) :
    findSession (deleteSession repo d) d = none := by
  rw [findSession_eq_none]
  intro s hs
  have := List.of_mem_filter hs
  simpa using this

theorem findSession_delete_ne (repo : Repo) {d e : String} (h : e ≠ d) :
    findSession (deleteSession repo d) e = findSession repo e := by
  unfold findSession deleteSession
  induction repo with
  | nil => rfl
  | cons a l ih =>
    by_cases ha : a.email = d
    · rw [List.filter_cons_of_neg (by simp [ha]),
        List.find?_cons_of_neg _
          (by simp only [decide_eq_true_eq]; exact fun hc => h (hc.symm.trans ha))]
      exact ih
    · rw [List.filter_cons_of_pos (by simp [ha])]
      by_cases hae : a.email = e
      · rw [List.find?_cons_of_pos _ (by simp [hae]),
          List.find?_cons_of_pos _ (by simp [hae])]
      · rw [List.find?_cons_of_neg _ (by simp [hae]),
          List.find?_cons_of_neg _ (by simp [hae])]
        exact ih

theorem findSession_of_mem_nodup {s : Session} :
    ∀ {repo : Repo}, (repo.map Session.email).Nodup → s ∈ repo →
      findSession repo s.email = some s := by
  intro repo
  induction repo with
  | nil => intro _ h; cases h
  | cons a l ih =>
    intro hnd hmem
    have hnd' : (∀ x ∈ l, ¬ x.email = a.email) ∧
        (List.map Session.email l).Nodup := by simpa using hnd
    rcases List.mem_cons.mp hmem with rfl | hl
    · exact List.find?_cons_of_pos _ (by simp)
    · have ha : ¬ a.email = s.email := fun hc => hnd'.1 s hl hc.symm
      unfold findSession at ih ⊢
      rw [List.find?_cons_of_neg _ (by simpa using ha)]
      exact ih hnd'.2 hl

/-! ### The rotation ordering -/

theorem keyLE_antisymm_email {a b : Session} (h₁ : keyLE a b) (h₂ : keyLE b a) :
    a.email = b.email := by
  rcases h₁ with h₁ | ⟨e₁, m₁⟩
  · rcases h₂ with h₂ | ⟨e₂, m₂⟩
    · omega
    · omega
  · rcases h₂ with h₂ | ⟨e₂, m₂⟩
    · omega
    · exact le_antisymm m₁ m₂

theorem sorted_nodup_perm_eq :
    ∀ {l₁ l₂ : List Session}, l₁.Perm l₂ → List.Sorted keyLE l₁ →
      List.Sorted keyLE l₂ → (l₁.map Session.email).Nodup → l₁ = l₂ := by
  intro l₁
  induction l₁ with
  | nil =>
    intro l₂ hp _ _ _
    exact (hp.symm.eq_nil).symm
  | cons a t ih =>
    intro l₂ hp hs₁ hs₂ hnd
    cases l₂ with
    | nil => exact absurd hp.eq_nil (by simp)
    | cons b u =>
      obtain ⟨hmin₁, hst⟩ := List.sorted_cons.mp hs₁
      obtain ⟨hmin₂, hsu⟩ := List.sorted_cons.mp hs₂
      have hnd' : (∀ x ∈ t, ¬ x.email = a.email) ∧
          (List.map Session.email t).Nodup := by simpa using hnd
      have hab : a = b := by
        rcases List.mem_cons.mp (hp.mem_iff.mpr (List.mem_cons_self b u)) with h | hbt
        · exact h.symm
        rcases List.mem_cons.mp (hp.mem_iff.mp (List.mem_cons_self a t)) with h | hau
        · exact h
        have hemail := keyLE_antisymm_email (hmin₁ b hbt) (hmin₂ a hau)
        exact absurd hemail.symm (hnd'.1 b hbt)
      subst hab
      rw [ih hp.cons_inv hst hsu hnd'.2]

theorem orderedSessions_perm (repo : Repo) : (orderedSessions repo).Perm repo :=
  List.perm_insertionSort keyLE repo

theorem orderedSessions_sorted (repo : Repo) :
    List.Sorted keyLE (orderedSessions repo) :=
  List.sorted_insertionSort keyLE repo

theorem orderedSessions_nodup_email {repo : Repo}
    (hnd : (repo.map Session.email).Nodup) :
    ((orderedSessions repo).map Session.email).Nodup :=
  (((orderedSessions_perm repo).map Session.email).nodup_iff).mpr hnd

theorem orderedSessions_eq {repo : Repo} {l : List Session}
    (hperm : repo.Perm l) (hsort : List.Sorted keyLE l)
    (hnd : (repo.map Session.email).Nodup) :
    orderedSessions repo = l :=
  sorted_nodup_perm_eq ((orderedSessions_perm repo).trans hperm)
    (orderedSessions_sorted repo) hsort (orderedSessions_nodup_email hnd)

theorem orderedSessions_length (repo : Repo) :
    (orderedSessions repo).length = repo.length :=
  List.length_insertionSort keyLE repo

/-! ### Characterising `getNextSession` -/

theorem findIdx_email_of_nodup {l : List Session} {i : Nat}
    (hnd : (l.map Session.email).Nodup) (hi : i < l.length) :
    l.findIdx (fun x => x.email = (l.get ⟨i, hi⟩).email) = i := by
  rw [List.findIdx_eq hi]
  constructor
  · simp
  · intro j hji
    have hj : j < l.length := Nat.lt_trans hji hi
    simp only [decide_eq_false_iff_not]
    intro hEq
    have hj' : j < (l.map Session.email).length := by simpa using hj
    have hi' : i < (l.map Session.email).length := by simpa using hi
    have : (l.map Session.email)[j] = (l.map Session.email)[i] := by
      rw [List.getElem_map, List.getElem_map]
      simpa using hEq
    have := (hnd.getElem_inj_iff).mp this
    omega

theorem getNextSession_first {repo : Repo} {cur : Option String}
    (h : ∀ c, cur = some c → c ≠ "" → ∀ s ∈ orderedSessions repo, s.email ≠ c) :
    getNextSession repo cur = (orderedSessions repo)[0]? := by
  unfold getNextSession
  by_cases h0 : (orderedSessions repo).length = 0
  · rw [if_pos h0]
    rw [List.length_eq_zero] at h0
    rw [h0]
    rfl
  · rw [if_neg h0]
    by_cases h1 : (orderedSessions repo).length = 1
    · rw [if_pos h1]
    · rw [if_neg h1]
      cases cur with
      | none => rfl
      | some c =>
        by_cases hc : c = ""
        · simp [hc]
        · simp only [if_neg hc]
          have hidx : (orderedSessions repo).findIdx (fun s => s.email = c) =
              (orderedSessions repo).length := by
            apply List.findIdx_eq_length_of_false
            intro x hx
            simpa using h c rfl hc x hx
          rw [hidx, if_neg (lt_irrefl _)]

theorem getNextSession_found {repo : Repo} {c : String} {i : Nat}
    (hnd : (repo.map Session.email).Nodup) (hne : c ≠ "")
    (hi : i < (orderedSessions repo).length)
    (hc : ((orderedSessions repo).get ⟨i, hi⟩).email = c) :
    getNextSession repo (some c) =
      (orderedSessions repo)[(i + 1) % (orderedSessions repo).length]? := by
  have hnd' : ((orderedSessions repo).map Session.email).Nodup :=
    orderedSessions_nodup_email hnd
  unfold getNextSession
  have h0 : ¬ (orderedSessions repo).length = 0 := by omega
  rw [if_neg h0]
  by_cases h1 : (orderedSessions repo).length = 1
  · rw [if_pos h1]
    have hi0 : i = 0 := by omega
    subst hi0
    rw [h1]
  · rw [if_neg h1]
    simp only [if_neg hne]
    have hidx : (orderedSessions repo).findIdx (fun s => s.email = c) = i := by
      subst hc
      exact findIdx_email_of_nodup hnd' hi
    rw [hidx, if_pos hi]

/-- C1: for every repository state (distinct, nonempty identities, as the
data-model invariants guarantee for persisted sessions) and every optional
current identity, `getNextSession` returns none on an empty repository,
the unique session when exactly one exists, the first element of the list
ordered by `last_used` ascending tie-broken by email ascending when the
current identity is none or not stored, and otherwise the element
immediately after the current identity's position in that ordered list,
wrapping to index 0 after the last element. -/
theorem rotation_selector_spec (repo : Repo) (cur : Option String)
    (l : List Session)
    (hnd : (repo.map Session.email).Nodup)
    (hne : ∀ s ∈ repo, s.email ≠ "")
    (hperm : repo.Perm l) (hsort : List.Sorted keyLE l) :
    (repo = [] → getNextSession repo cur = none) ∧
    (∀ s, repo = [s] → getNextSession repo cur = some s) ∧
    ((cur = none ∨ ∃ c, cur = some c ∧ ∀ s ∈ repo, s.email ≠ c) →
      getNextSession repo cur = l[0]?) ∧
    (∀ c i s, cur = some c → l[i]? = some s → s.email = c →
      getNextSession repo cur = l[(i + 1) % l.length]?) := by
  have hleq : orderedSessions repo = l := orderedSessions_eq hperm hsort hnd
  subst hleq
  refine ⟨?_, ?_, ?_, ?_⟩
  · rintro rfl
    simp [getNextSession, orderedSessions]
  · rintro s rfl
    simp [getNextSession, orderedSessions]
  · intro hfirst
    apply getNextSession_first
    intro c hcur hcne s hs
    rcases hfirst with hnone | ⟨c₀, hc₀, hnf⟩
    · rw [hnone] at hcur; cases hcur
    · have hcc : c₀ = c := by
        rw [hc₀] at hcur
        exact Option.some.inj hcur
      subst hcc
      exact hnf s ((orderedSessions_perm repo).mem_iff.mp hs)
  · intro c i s hcur hil hemail
    subst hcur
    obtain ⟨hi, hgi⟩ := List.getElem?_eq_some_iff.mp hil
    have hsmem : s ∈ repo := by
      apply (orderedSessions_perm repo).mem_iff.mp
      rw [← hgi]
      exact List.getElem_mem hi
    have hcne : c ≠ "" := by
      rw [← hemail]
      exact hne s hsmem
    apply getNextSession_found hnd hcne hi
    rw [List.get_eq_getElem, hgi, hemail]

/-- Closed instance of the C1 theorem: in the three-session fixture, the
successor of `b@x.com` (position 1 of the order) is `c@x.com`. -/
theorem rotation_selector_spec_witness :
    getNextSession wRepo (some "b@x.com") = some wC := by
  have h := (rotation_selector_spec wRepo (some "b@x.com") [wA, wB, wC]
      (by decide) (by decide) (by decide) (by decide)).2.2.2
      "b@x.com" 1 wB rfl (by decide) (by decide)
  exact h.trans (by decide)

theorem get_email_congr {l : List Session} {i j : Nat}
    (hi : i < l.length) (hj : j < l.length) (h : i = j) :
    (l.get ⟨i, hi⟩).email = (l.get ⟨j, hj⟩).email := by
  subst h
  rfl

theorem email_get_inj {l : List Session}
    (hnd : (l.map Session.email).Nodup) {a b : Nat}
    (ha : a < l.length) (hb : b < l.length)
    (h : (l.get ⟨a, ha⟩).email = (l.get ⟨b, hb⟩).email) : a = b := by
  have ha' : a < (l.map Session.email).length := by simpa using ha
  have hb' : b < (l.map Session.email).length := by simpa using hb
  apply (@List.Nodup.getElem_inj_iff _ _ hnd a ha' b hb').mp
  rw [List.getElem_map, List.getElem_map]
  simpa using h

theorem rotEmail_get {repo : Repo} {i : Nat}
    (hnd : (repo.map Session.email).Nodup)
    (hne : ∀ s ∈ repo, s.email ≠ "")
    (hi : i < (orderedSessions repo).length) :
    rotEmail repo ((orderedSessions repo).get ⟨i, hi⟩).email =
      ((orderedSessions repo).get
        ⟨(i + 1) % (orderedSessions repo).length,
         Nat.mod_lt _ (by omega)⟩).email := by
  have hmem : (orderedSessions repo).get ⟨i, hi⟩ ∈ repo :=
    (orderedSessions_perm repo).mem_iff.mp (List.get_mem _ _ hi)
  have hcne := hne _ hmem
  unfold rotEmail
  rw [getNextSession_found hnd hcne hi rfl]
  have hlt : (i + 1) % (orderedSessions repo).length <
      (orderedSessions repo).length := Nat.mod_lt _ (by omega)
  rw [List.getElem?_eq_getElem hlt]
  rfl

theorem rotEmail_iterate {repo : Repo}
    (hnd : (repo.map Session.email).Nodup)
    (hne : ∀ s ∈ repo, s.email ≠ "") :
    ∀ (k i : Nat) (hi : i < (orderedSessions repo).length),
      (rotEmail repo)^[k] ((orderedSessions repo).get ⟨i, hi⟩).email =
        ((orderedSessions repo).get
          ⟨(i + k) % (orderedSessions repo).length,
           Nat.mod_lt _ (by omega)⟩).email := by
  intro k
  induction k with
  | zero =>
    intro i hi
    simp only [Function.iterate_zero, id_eq]
    exact get_email_congr hi _ (by rw [Nat.add_zero, Nat.mod_eq_of_lt hi])
  | succ k ih =>
    intro i hi
    rw [Function.iterate_succ_apply, rotEmail_get hnd hne hi,
      ih ((i + 1) % (orderedSessions repo).length) (Nat.mod_lt _ (by omega))]
    apply get_email_congr
    rw [Nat.mod_add_mod]
    congr 1
    omega

/-- C3: on a frozen repository with N distinct (nonempty) identities, the
successor map of `getNextSession` is an N-cycle: starting from any stored
session, N applications return to the start, the first N iterates are
pairwise distinct, and every stored session is visited. -/
theorem rotation_cycle (repo : Repo)
    (hnd : (repo.map Session.email).Nodup)
    (hne : ∀ s ∈ repo, s.email ≠ "")
    (s : Session) (hs : s ∈ repo) :
    (rotEmail repo)^[repo.length] s.email = s.email ∧
    (∀ j k, j < repo.length → k < repo.length →
      (rotEmail repo)^[j] s.email = (rotEmail repo)^[k] s.email → j = k) ∧
    (∀ t ∈ repo, ∃ k, k < repo.length ∧
      (rotEmail repo)^[k] s.email = t.email) := by
  have hlen : (orderedSessions repo).length = repo.length :=
    orderedSessions_length repo
  have hndl : ((orderedSessions repo).map Session.email).Nodup :=
    orderedSessions_nodup_email hnd
  have hsL : s ∈ orderedSessions repo :=
    (orderedSessions_perm repo).mem_iff.mpr hs
  obtain ⟨⟨i, hi⟩, hgi⟩ := List.mem_iff_get.mp hsL
  have hpos : 0 < (orderedSessions repo).length := by omega
  refine ⟨?_, ?_, ?_⟩
  · rw [← hgi, rotEmail_iterate hnd hne repo.length i hi]
    apply get_email_congr
    rw [← hlen, Nat.add_mod_right]
    exact Nat.mod_eq_of_lt hi
  · intro j k hj hk hEq
    rw [← hgi, rotEmail_iterate hnd hne j i hi,
      rotEmail_iterate hnd hne k i hi] at hEq
    have hix := email_get_inj hndl _ _ hEq
    have hmodeq : (i + j) % (orderedSessions repo).length =
        (i + k) % (orderedSessions repo).length := hix
    have hjk : j % (orderedSessions repo).length =
        k % (orderedSessions repo).length :=
      Nat.ModEq.add_left_cancel' i hmodeq
    rw [Nat.mod_eq_of_lt (by omega), Nat.mod_eq_of_lt (by omega)] at hjk
    exact hjk
  · intro t ht
    have htL : t ∈ orderedSessions repo :=
      (orderedSessions_perm repo).mem_iff.mpr ht
    obtain ⟨⟨m, hm⟩, hgm⟩ := List.mem_iff_get.mp htL
    refine ⟨(m + (orderedSessions repo).length - i) %
      (orderedSessions repo).length, ?_, ?_⟩
    · rw [← hlen]
      exact Nat.mod_lt _ hpos
    · rw [← hgi, rotEmail_iterate hnd hne _ i hi, ← hgm]
      apply get_email_congr
      rw [Nat.add_mod_mod]
      have hsum : i + (m + (orderedSessions repo).length - i) =
          m + (orderedSessions repo).length := by omega
      rw [hsum, Nat.add_mod_right]
      exact Nat.mod_eq_of_lt hm

/-- Closed instance of the C3 theorem: in the three-session fixture, three
successor steps from `a@x.com` lead back to `a@x.com`. -/
theorem rotation_cycle_witness :
    (rotEmail wRepo)^[wRepo.length] wA.email = wA.email :=
  (rotation_cycle wRepo (by decide) (by decide) wA (by decide)).1

theorem findSession_updateBlobs (repo : Repo) (e a g : String) (now : Nat)
    (x : String) :
    findSession (updateBlobs repo e a g now) x =
      (findSession repo x).map fun s =>
        if s.email = e then
          { s with auth_status := a, google_data := g, updated_at := now }
        else s := by
  unfold updateBlobs
  exact findSession_map_email_preserving (by intro s; by_cases h : s.email = e <;> simp [h]) repo x

theorem findSession_updateBlobs_self {repo : Repo} {e : String} {ex : Session}
    (a g : String) (now : Nat) (h : findSession repo e = some ex) :
    findSession (updateBlobs repo e a g now) e =
      some { ex with auth_status := a, google_data := g, updated_at := now } := by
  rw [findSession_updateBlobs, h]
  have := findSession_email h
  simp [this]

theorem findSession_touch (repo : Repo) (e : String) (now : Nat) (x : String) :
    findSession (repo.map fun r =>
        if r.email = e then { r with last_used := now } else r) x =
      (findSession repo x).map fun r =>
        if r.email = e then { r with last_used := now } else r :=
  findSession_map_email_preserving (by intro s; by_cases h : s.email = e <;> simp [h]) repo x

/-- C2: `syncCurrent` returns `NoActiveSession` and changes nothing when no
current session can be read; when the read identity is absent it inserts a
row with `last_used = 0` and `created_at = updated_at = now` and returns
`Added`; when present and either blob differs under exact string equality it
rewrites the blobs and `updated_at` and returns `Updated`; otherwise it
returns `Unchanged` with the table untouched. -/
theorem sync_engine_spec (parse : String → Option String) (live : LiveStore)
    (repo : Repo) (now : Nat) :
    (getCurrentSession parse live = none →
      syncCurrent parse live repo now = (SyncResult.NoActiveSession, repo)) ∧
    (∀ c, getCurrentSession parse live = some c →
      ((findSession repo c.email = none →
        (syncCurrent parse live repo now).1 = SyncResult.Added c.email ∧
        findSession (syncCurrent parse live repo now).2 c.email =
          some ⟨c.email, none, c.auth_status, c.google_data, 0, now, now⟩) ∧
      (∀ ex, findSession repo c.email = some ex →
        (ex.auth_status ≠ c.auth_status ∨ ex.google_data ≠ c.google_data) →
        (syncCurrent parse live repo now).1 = SyncResult.Updated c.email ∧
        findSession (syncCurrent parse live repo now).2 c.email =
          some { ex with auth_status := c.auth_status, google_data := c.google_data, updated_at := now }) ∧
      (∀ ex, findSession repo c.email = some ex →
        ex.auth_status = c.auth_status → ex.google_data = c.google_data →
        syncCurrent parse live repo now =
          (SyncResult.Unchanged c.email, repo)))) := by
  constructor
  · intro h
    simp [syncCurrent, h]
  · intro c hc
    refine ⟨?_, ?_, ?_⟩
    · intro habs
      constructor
      · simp [syncCurrent, hc, habs]
      · have hres : (syncCurrent parse live repo now).2 = insertNew repo c now := by
          simp [syncCurrent, hc, habs]
        rw [hres]
        unfold insertNew
        exact findSession_append_single habs rfl
    · intro ex hex hdiff
      have hres : syncCurrent parse live repo now =
          (SyncResult.Updated c.email,
           updateBlobs repo c.email c.auth_status c.google_data now) := by
        simp only [syncCurrent, hc, hex]
        rw [if_pos hdiff]
      rw [hres]
      exact ⟨rfl, findSession_updateBlobs_self _ _ _ hex⟩
    · intro ex hex h1 h2
      simp only [syncCurrent, hc, hex]
      rw [if_neg (by simp [h1, h2])]

/-- Closed instance of the C2 theorem: syncing the fixture live store into an
empty table adds a row for `a@x.com` with `last_used = 0` and both timestamp
fields equal to the clock reading 5. -/
theorem sync_engine_spec_witness :
    (syncCurrent parseW liveW [] 5).1 = SyncResult.Added "a@x.com" ∧
    findSession (syncCurrent parseW liveW [] 5).2 "a@x.com" =
      some ⟨"a@x.com", none, "A1", "{}", 0, 5, 5⟩ :=
  ((sync_engine_spec parseW liveW [] 5).2 ⟨"a@x.com", "A1", "{}"⟩
    (by decide)).1 (by decide)

/-! ### Stability of `syncCurrent` -/

theorem syncCurrent_post_stable (parse : String → Option String)
    (live : LiveStore) (repo : Repo) (n : Nat) (c : Current)
    (hc : getCurrentSession parse live = some c) :
    ∃ ex, findSession (syncCurrent parse live repo n).2 c.email = some ex ∧
      ex.auth_status = c.auth_status ∧ ex.google_data = c.google_data := by
  cases hex : findSession repo c.email with
  | none =>
    refine ⟨⟨c.email, none, c.auth_status, c.google_data, 0, n, n⟩, ?_, rfl, rfl⟩
    have hres : (syncCurrent parse live repo n).2 = insertNew repo c n := by
      simp [syncCurrent, hc, hex]
    rw [hres]
    exact findSession_append_single hex rfl
  | some ex =>
    by_cases hdiff : ex.auth_status ≠ c.auth_status ∨ ex.google_data ≠ c.google_data
    · refine ⟨{ ex with auth_status := c.auth_status, google_data := c.google_data, updated_at := n }, ?_, rfl, rfl⟩
      have hres : (syncCurrent parse live repo n).2 =
          updateBlobs repo c.email c.auth_status c.google_data n := by
        simp only [syncCurrent, hc, hex]
        rw [if_pos hdiff]
      rw [hres]
      exact findSession_updateBlobs_self _ _ _ hex
    · push_neg at hdiff
      refine ⟨ex, ?_, hdiff.1, hdiff.2⟩
      have hres : (syncCurrent parse live repo n).2 = repo := by
        simp only [syncCurrent, hc, hex]
        rw [if_neg (by simp [hdiff.1, hdiff.2])]
      rw [hres]
      exact hex

theorem syncCurrent_fix (parse : String → Option String) (live : LiveStore)
    (repo₁ : Repo) (c : Current) (m : Nat)
    (hc : getCurrentSession parse live = some c)
    (hst : ∃ ex, findSession repo₁ c.email = some ex ∧
      ex.auth_status = c.auth_status ∧ ex.google_data = c.google_data) :
    syncCurrent parse live repo₁ m = (SyncResult.Unchanged c.email, repo₁) := by
  obtain ⟨ex, hex, h1, h2⟩ := hst
  simp only [syncCurrent, hc, hex]
  rw [if_neg (by simp [h1, h2])]

theorem syncSeq_unchanged (parse : String → Option String) (live : LiveStore)
    (repo₁ : Repo) (c : Current)
    (hfix : ∀ m, syncCurrent parse live repo₁ m =
      (SyncResult.Unchanged c.email, repo₁)) :
    ∀ ts, ∀ r ∈ (syncSeq parse live repo₁ ts).1,
      r = SyncResult.Unchanged c.email := by
  intro ts
  induction ts with
  | nil => intro r hr; cases hr
  | cons t ts ih =>
    intro r hr
    simp only [syncSeq, hfix t] at hr
    rcases List.mem_cons.mp hr with rfl | hr'
    · rfl
    · exact ih r hr'

/-- C5: against a fixed live store with a parseable identity, after the
first `syncCurrent` call every subsequent call in any sequence returns
`Unchanged` (never `Added` or `Updated`); the first call is the only one
that can return `Added`, and does so exactly when the identity was absent. -/
theorem sync_seq_only_first_added (parse : String → Option String)
    (live : LiveStore) (repo : Repo) (now₁ : Nat) (c : Current)
    (hc : getCurrentSession parse live = some c) :
    (findSession repo c.email = none →
      (syncCurrent parse live repo now₁).1 = SyncResult.Added c.email) ∧
    (∀ ts : List Nat,
      ∀ r ∈ (syncSeq parse live (syncCurrent parse live repo now₁).2 ts).1,
        r = SyncResult.Unchanged c.email) := by
  constructor
  · intro h
    simp [syncCurrent, hc, h]
  · exact syncSeq_unchanged parse live _ c
      (fun m => syncCurrent_fix parse live _ c m hc
        (syncCurrent_post_stable parse live repo now₁ c hc))

/-- Closed instance of the C5 theorem: after the first sync of the fixture
live store into an empty table, the next two sync calls both return
`Unchanged`. -/
theorem sync_seq_only_first_added_witness :
    (syncSeq parseW liveW (syncCurrent parseW liveW [] 5).2 [6, 7]).1.getD 0
      SyncResult.NoActiveSession = SyncResult.Unchanged "a@x.com" :=
  (sync_seq_only_first_added parseW liveW [] 5 ⟨"a@x.com", "A1", "{}"⟩
    (by decide)).2 [6, 7] _ (by decide)

theorem loadSession_not_found {repo : Repo} {live : LiveStore} {e : String}
    {now : Nat} (habs : ∀ s ∈ repo, s.email ≠ e) :
    loadSession repo live e now = (false, live, repo) := by
  unfold loadSession
  rw [findSession_eq_none.mpr habs]

/-- C4: loading a stored session (one satisfying the storage invariants:
distinct identities, identity extracted from its own auth blob, nonempty
blobs) and then reading the current session back yields exactly that
session's identity and blobs. -/
theorem load_roundtrip (parse : String → Option String) (repo : Repo)
    (live : LiveStore) (s : Session) (now : Nat)
    (hmem : s ∈ repo) (hnd : (repo.map Session.email).Nodup)
    (hok : parse s.auth_status = some s.email)
    (hne : s.email ≠ "") (hg : s.google_data ≠ "") :
    (loadSession repo live s.email now).1 = true ∧
    getCurrentSession parse (loadSession repo live s.email now).2.1 =
      some ⟨s.email, s.auth_status, s.google_data⟩ := by
  have hfind := findSession_of_mem_nodup hnd hmem
  unfold loadSession
  rw [hfind]
  refine ⟨rfl, ?_⟩
  simp only [getCurrentSession, hok, jsOrDefault]
  rw [if_neg hne, if_neg hg]

/-- Closed instance of the C4 theorem: loading `a@x.com` from the
one-session fixture table and reading back yields its identity and blobs. -/
theorem load_roundtrip_witness :
    (loadSession [wA] ⟨none, none⟩ wA.email 50).1 = true ∧
    getCurrentSession parseW (loadSession [wA] ⟨none, none⟩ wA.email 50).2.1 =
      some ⟨wA.email, wA.auth_status, wA.google_data⟩ :=
  load_roundtrip parseW [wA] ⟨none, none⟩ wA 50 (by decide) (by decide)
    (by decide) (by decide) (by decide)

/-- C7: `loadSession` on an identity absent from the repository signals the
miss and has no partial effect: the live store and every repository row are
returned exactly as they were. -/
theorem load_missing_no_effect (repo : Repo) (live : LiveStore) (e : String)
    (now : Nat) (habs : ∀ s ∈ repo, s.email ≠ e) :
    loadSession repo live e now = (false, live, repo) :=
  loadSession_not_found habs

/-- Closed instance of the C7 theorem on the three-session fixture. -/
theorem load_missing_no_effect_witness :
    loadSession wRepo liveW "nobody@x.com" 50 = (false, liveW, wRepo) :=
  load_missing_no_effect wRepo liveW "nobody@x.com" 50 (by decide)

/-- C8: the update path of the sync engine rewrites only `auth_status`,
`google_data` and `updated_at` of the row matching the identity: its
`email`, `name`, `created_at` and `last_used` are untouched, rows of other
identities are returned verbatim, and no row is added or removed. -/
theorem update_blobs_frame (repo : Repo) (e a g : String) (now : Nat) :
    (updateBlobs repo e a g now).length = repo.length ∧
    ∀ (i : Nat) (s₀ : Session), repo[i]? = some s₀ →
      ∃ s₁, (updateBlobs repo e a g now)[i]? = some s₁ ∧
        s₁.email = s₀.email ∧ s₁.name = s₀.name ∧
        s₁.created_at = s₀.created_at ∧ s₁.last_used = s₀.last_used ∧
        (s₀.email = e → s₁.auth_status = a ∧ s₁.google_data = g ∧
          s₁.updated_at = now) ∧
        (s₀.email ≠ e → s₁ = s₀) := by
  constructor
  · simp [updateBlobs]
  · intro i s₀ h
    unfold updateBlobs
    rw [List.getElem?_map, h]
    by_cases hse : s₀.email = e
    · exact ⟨_, rfl, by simp [hse], by simp [hse], by simp [hse], by simp [hse],
        fun _ => ⟨by simp [hse], by simp [hse], by simp [hse]⟩,
        fun hne => absurd hse hne⟩
    · exact ⟨_, rfl, by simp [hse], by simp [hse], by simp [hse], by simp [hse],
        fun hEq => absurd hEq hse, fun _ => by simp [hse]⟩

/-- Closed instance of the C8 theorem: updating `a@x.com` in the fixture
table leaves the row for `c@x.com` (index 0) verbatim. -/
theorem update_blobs_frame_witness :
    ∃ s₁, (updateBlobs wRepo "a@x.com" "A2" "{2}" 99)[0]? = some s₁ ∧
      s₁.email = wC.email ∧ s₁.name = wC.name ∧
      s₁.created_at = wC.created_at ∧ s₁.last_used = wC.last_used ∧
      (wC.email = "a@x.com" → s₁.auth_status = "A2" ∧ s₁.google_data = "{2}" ∧
        s₁.updated_at = 99) ∧
      (wC.email ≠ "a@x.com" → s₁ = wC) :=
  (update_blobs_frame wRepo "a@x.com" "A2" "{2}" 99).2 0 wC (by decide)

/-- C6 counterexample: with an empty repository (so `x@y.com` is certainly
absent), `load` exits with code 0 rather than non-zero, and `delete` exits 0
and reports no error at all. -/
theorem cli_missing_identity_counterexample :
    (cliLoad ⟨⟨none, none⟩, []⟩ "x@y.com" 5).exitCode = 0 ∧
    (cliDelete ⟨⟨none, none⟩, []⟩ "x@y.com").exitCode = 0 ∧
    (cliDelete ⟨⟨none, none⟩, []⟩ "x@y.com").errorReported = false := by
  decide

/-- C6 amended: for a nonempty identity absent from the repository, the
`load` command reports an error without crashing but the process exits zero,
and the `delete` command reports no error (its deletion message is printed
unconditionally), leaves the state unchanged, and also exits zero. -/
theorem cli_missing_identity (st : St) (e : String) (now : Nat)
    (hne : e ≠ "") (habs : ∀ s ∈ st.repo, s.email ≠ e) :
    cliLoad st e now = ⟨0, true, st⟩ ∧ cliDelete st e = ⟨0, false, st⟩ := by
  constructor
  · unfold cliLoad
    rw [if_neg hne, loadSession_not_found habs]
    rfl
  · unfold cliDelete
    rw [if_neg hne]
    have hdel : deleteSession st.repo e = st.repo :=
      List.filter_eq_self.mpr (fun a ha => by simpa using habs a ha)
    rw [hdel]

/-- Closed instance of the C6 amended theorem. -/
theorem cli_missing_identity_witness :
    cliLoad ⟨liveW, wRepo⟩ "nobody@x.com" 5 = ⟨0, true, ⟨liveW, wRepo⟩⟩ ∧
    cliDelete ⟨liveW, wRepo⟩ "nobody@x.com" = ⟨0, false, ⟨liveW, wRepo⟩⟩ :=
  cli_missing_identity ⟨liveW, wRepo⟩ "nobody@x.com" 5 (by decide) (by decide)

/-! ### Clock bookkeeping for operation sequences -/

theorem le_foldl_max : ∀ (l : List Nat) (t : Nat), t ≤ l.foldl max t := by
  intro l
  induction l with
  | nil => intro t; exact le_refl t
  | cons a l ih =>
    intro t
    exact le_trans (le_max_left t a) (ih (max t a))

theorem mem_le_foldl_max {x : Nat} :
    ∀ {l : List Nat} (t : Nat), x ∈ l → x ≤ l.foldl max t := by
  intro l
  induction l with
  | nil => intro t hx; cases hx
  | cons a l ih =>
    intro t hx
    rcases List.mem_cons.mp hx with rfl | hx'
    · exact le_trans (le_max_right t x) (le_foldl_max l (max t x))
    · exact ih (max t a) hx'

theorem foldl_max_le {y : Nat} :
    ∀ {l : List Nat} {t : Nat}, t ≤ y → (∀ x ∈ l, x ≤ y) → l.foldl max t ≤ y := by
  intro l
  induction l with
  | nil => intro t ht _; exact ht
  | cons a l ih =>
    intro t ht hl
    exact ih (max_le ht (hl a (List.mem_cons_self a l)))
      (fun x hx => hl x (List.mem_cons_of_mem a hx))

theorem timesOf_cons (op : Op) (ops : List Op) :
    timesOf (op :: ops) = opTimes op ++ timesOf ops := by
  simp [timesOf]

theorem allUpdLe_mono {repo : Repo} {t t' : Nat}
    (h : allUpdLe repo t) (htt : t ≤ t') : allUpdLe repo t' :=
  fun s hs => le_trans (h s hs) htt

/-! ### Shapes of the repository after each operation -/

theorem syncCurrent_repo_cases (parse : String → Option String)
    (live : LiveStore) (repo : Repo) (now : Nat) :
    (syncCurrent parse live repo now).2 = repo ∨
    (∃ c, getCurrentSession parse live = some c ∧
      findSession repo c.email = none ∧
      (syncCurrent parse live repo now).2 = insertNew repo c now) ∨
    (∃ c, getCurrentSession parse live = some c ∧
      (syncCurrent parse live repo now).2 =
        updateBlobs repo c.email c.auth_status c.google_data now) := by
  cases hc : getCurrentSession parse live with
  | none =>
    left
    simp [syncCurrent, hc]
  | some c =>
    cases hex : findSession repo c.email with
    | none =>
      right; left
      exact ⟨c, rfl, hex, by simp [syncCurrent, hc, hex]⟩
    | some ex =>
      by_cases hdiff : ex.auth_status ≠ c.auth_status ∨
          ex.google_data ≠ c.google_data
      · right; right
        refine ⟨c, rfl, ?_⟩
        simp only [syncCurrent, hc, hex]
        rw [if_pos hdiff]
      · left
        simp only [syncCurrent, hc, hex]
        rw [if_neg hdiff]

theorem loadSession_repo_cases (repo : Repo) (live : LiveStore) (e : String)
    (now : Nat) :
    (loadSession repo live e now).2.2 = repo ∨
    (loadSession repo live e now).2.2 = repo.map fun r =>
      if r.email = e then { r with last_used := now } else r := by
  unfold loadSession
  cases hf : findSession repo e with
  | none => left; rfl
  | some s => right; rfl

theorem nextOp_repo_cases (parse : String → Option String) (live : LiveStore)
    (repo : Repo) (n₁ n₂ : Nat) :
    (nextOp parse live repo n₁ n₂).2 = (syncCurrent parse live repo n₁).2 ∨
    ∃ e, (nextOp parse live repo n₁ n₂).2 =
      (loadSession (syncCurrent parse live repo n₁).2 live e n₂).2.2 := by
  cases hc : getCurrentSession parse live with
  | none =>
    cases hn : getNextSession (syncCurrent parse live repo n₁).2 none with
    | none => left; simp [nextOp, hc, hn]
    | some ns => right; exact ⟨ns.email, by simp [nextOp, hc, hn]⟩
  | some c =>
    cases hn : getNextSession (syncCurrent parse live repo n₁).2
        (some c.email) with
    | none => left; simp [nextOp, hc, hn]
    | some ns =>
      by_cases hEq : ns.email = c.email
      · left; simp [nextOp, hc, hn, hEq]
      · right; exact ⟨ns.email, by simp [nextOp, hc, hn, hEq]⟩

/-! ### `updated_at` monotonicity of each operation -/

theorem syncCurrent_find_mono {parse : String → Option String}
    {live : LiveStore} {repo : Repo} {now t : Nat}
    (hle : allUpdLe repo t) (htn : t ≤ now) {e : String} {s : Session}
    (h : findSession repo e = some s) :
    ∃ s', findSession (syncCurrent parse live repo now).2 e = some s' ∧
      s.updated_at ≤ s'.updated_at := by
  rcases syncCurrent_repo_cases parse live repo now with
    hr | ⟨c, hc, hex, hr⟩ | ⟨c, hc, hr⟩ <;> rw [hr]
  · exact ⟨s, h, le_refl _⟩
  · refine ⟨s, ?_, le_refl _⟩
    unfold insertNew
    exact findSession_append_found _ h
  · rw [findSession_updateBlobs, h]
    refine ⟨_, rfl, ?_⟩
    dsimp only
    split
    · exact le_trans (hle s (findSession_mem h)) htn
    · exact le_refl _

theorem syncCurrent_allUpdLe {parse : String → Option String}
    {live : LiveStore} {repo : Repo} {now T : Nat}
    (hle : allUpdLe repo T) (hn : now ≤ T) :
    allUpdLe (syncCurrent parse live repo now).2 T := by
  rcases syncCurrent_repo_cases parse live repo now with
    hr | ⟨c, hc, hex, hr⟩ | ⟨c, hc, hr⟩ <;> rw [hr]
  · exact hle
  · intro s hs
    unfold insertNew at hs
    rcases List.mem_append.mp hs with h' | h'
    · exact hle s h'
    · have : s = ⟨c.email, none, c.auth_status, c.google_data, 0, now, now⟩ :=
        List.mem_singleton.mp h'
      rw [this]
      exact hn
  · intro s hs
    unfold updateBlobs at hs
    obtain ⟨s₀, hs₀, rfl⟩ := List.mem_map.mp hs
    split
    · exact hn
    · exact hle s₀ hs₀

theorem loadSession_find_updEq {repo : Repo} {live : LiveStore}
    {d : String} {now : Nat} {e : String} {s s' : Session}
    (h₁ : findSession repo e = some s)
    (h₂ : findSession (loadSession repo live d now).2.2 e = some s') :
    s'.updated_at = s.updated_at := by
  rcases loadSession_repo_cases repo live d now with hr | hr <;> rw [hr] at h₂
  · rw [h₁] at h₂
    cases h₂
    rfl
  · rw [findSession_touch, h₁] at h₂
    cases h₂
    dsimp only
    split <;> rfl

theorem loadSession_find_exists {repo : Repo} {live : LiveStore}
    {d : String} {now : Nat} {e : String} {s : Session}
    (h : findSession repo e = some s) :
    ∃ s', findSession (loadSession repo live d now).2.2 e = some s' := by
  rcases loadSession_repo_cases repo live d now with hr | hr <;> rw [hr]
  · exact ⟨s, h⟩
  · rw [findSession_touch, h]
    exact ⟨_, rfl⟩

theorem loadSession_allUpdLe {repo : Repo} {live : LiveStore} {d : String}
    {now T : Nat} (hle : allUpdLe repo T) :
    allUpdLe (loadSession repo live d now).2.2 T := by
  rcases loadSession_repo_cases repo live d now with hr | hr <;> rw [hr]
  · exact hle
  · intro s hs
    obtain ⟨s₀, hs₀, rfl⟩ := List.mem_map.mp hs
    split
    · exact hle s₀ hs₀
    · exact hle s₀ hs₀

theorem deleteSession_allUpdLe {repo : Repo} {d : String} {T : Nat}
    (hle : allUpdLe repo T) : allUpdLe (deleteSession repo d) T :=
  fun s hs => hle s (List.mem_of_mem_filter hs)

theorem step_find_mono (parse : String → Option String) (op : Op) (st : St)
    (t : Nat) (hle : allUpdLe st.repo t) (hts : ∀ x ∈ opTimes op, t ≤ x) :
    rowUpdMono st.repo (step parse op st).repo ∧
    allUpdLe (step parse op st).repo ((opTimes op).foldl max t) := by
  cases op with
  | sync now =>
    have htn : t ≤ now := hts now (by simp [opTimes])
    constructor
    · intro e s s' h₁ h₂
      obtain ⟨s'', hs'', hb⟩ := syncCurrent_find_mono hle htn h₁
      have h₂' : findSession (syncCurrent parse st.live st.repo now).2 e =
          some s' := h₂
      rw [hs''] at h₂'
      cases h₂'
      exact hb
    · show allUpdLe (syncCurrent parse st.live st.repo now).2 (max t now)
      exact syncCurrent_allUpdLe
        (allUpdLe_mono hle (le_max_left t now)) (le_max_right t now)
  | load e now =>
    constructor
    · intro x s s' h₁ h₂
      have h₂' : findSession (loadSession st.repo st.live e now).2.2 x =
          some s' := h₂
      exact le_of_eq (loadSession_find_updEq h₁ h₂').symm
    · exact loadSession_allUpdLe (allUpdLe_mono hle (le_max_left t now))
  | delete e =>
    constructor
    · intro x s s' h₁ h₂
      have h₂' : findSession (deleteSession st.repo e) x = some s' := h₂
      by_cases hx : x = e
      · rw [hx, findSession_delete_self] at h₂'
        cases h₂'
      · rw [findSession_delete_ne _ hx, h₁] at h₂'
        cases h₂'
        exact le_refl _
    · exact deleteSession_allUpdLe hle
  | next n₁ n₂ =>
    have ht1 : t ≤ n₁ := hts n₁ (by simp [opTimes])
    constructor
    · intro x s s' h₁ h₂
      have h₂' : findSession (nextOp parse st.live st.repo n₁ n₂).2 x =
          some s' := h₂
      obtain ⟨sm, hsm, hb₁⟩ := syncCurrent_find_mono hle ht1 h₁
      rcases nextOp_repo_cases parse st.live st.repo n₁ n₂ with hr | ⟨d, hr⟩ <;>
        rw [hr] at h₂'
      · rw [hsm] at h₂'
        cases h₂'
        exact hb₁
      · rw [loadSession_find_updEq hsm h₂']
        exact hb₁
    · have hsync : allUpdLe (syncCurrent parse st.live st.repo n₁).2
          (max (max t n₁) n₂) :=
        syncCurrent_allUpdLe
          (allUpdLe_mono hle (le_trans (le_max_left t n₁) (le_max_left _ n₂)))
          (le_trans (le_max_right t n₁) (le_max_left _ n₂))
      have hgoal : allUpdLe (nextOp parse st.live st.repo n₁ n₂).2
          (max (max t n₁) n₂) := by
        rcases nextOp_repo_cases parse st.live st.repo n₁ n₂ with hr | ⟨d, hr⟩ <;>
          rw [hr]
        · exact hsync
        · exact loadSession_allUpdLe hsync
      exact hgoal
  | external nlive =>
    constructor
    · intro x s s' h₁ h₂
      have h₂' : findSession st.repo x = some s' := h₂
      rw [h₁] at h₂'
      cases h₂'
      exact le_refl _
    · exact hle

theorem run_cons (parse : String → Option String) (p : Op) (ops : List Op)
    (st : St) : run parse (p :: ops) st = run parse ops (step parse p st) :=
  rfl

theorem run_step_mono_aux (parse : String → Option String) (op : Op)
    (suf : List Op) :
    ∀ (pre : List Op) (st : St) (t : Nat), allUpdLe st.repo t →
      List.Pairwise (· ≤ ·) (t :: timesOf (pre ++ op :: suf)) →
      rowUpdMono (run parse pre st).repo
        (step parse op (run parse pre st)).repo := by
  intro pre
  induction pre with
  | nil =>
    intro st t hle hpw
    have hts : ∀ x ∈ opTimes op, t ≤ x := by
      intro x hx
      apply (List.pairwise_cons.mp hpw).1
      rw [List.nil_append, timesOf_cons]
      exact List.mem_append_left _ hx
    exact (step_find_mono parse op st t hle hts).1
  | cons p pre ih =>
    intro st t hle hpw
    rw [List.cons_append, timesOf_cons] at hpw
    obtain ⟨hhead, htail⟩ := List.pairwise_cons.mp hpw
    obtain ⟨hA, hR, hAR⟩ := List.pairwise_append.mp htail
    have hts : ∀ x ∈ opTimes p, t ≤ x :=
      fun x hx => hhead x (List.mem_append_left _ hx)
    have hstep := step_find_mono parse p st t hle hts
    rw [run_cons]
    apply ih (step parse p st) ((opTimes p).foldl max t) hstep.2
    apply List.pairwise_cons.mpr
    refine ⟨?_, hR⟩
    intro y hy
    exact foldl_max_le (hhead y (List.mem_append_right _ hy))
      (fun x hx => hAR x hx y hy)

/-- C9: across any sequence of the program's operations whose clock readings
are nondecreasing and start at or after every stored `updated_at` value,
applying the next operation never decreases the `updated_at` of any row
present before and after it (deleted-then-recreated rows aside, which the
row-wise reading makes vacuous at the delete step). -/
theorem updated_at_monotone (parse : String → Option String) (st₀ : St)
    (pre suf : List Op) (op : Op) (t₀ : Nat)
    (hinit : allUpdLe st₀.repo t₀)
    (hchain : List.Chain' (· ≤ ·) (t₀ :: timesOf (pre ++ op :: suf))) :
    rowUpdMono (run parse pre st₀).repo
      (step parse op (run parse pre st₀)).repo :=
  run_step_mono_aux parse op suf pre st₀ t₀ hinit
    (List.chain'_iff_pairwise.mp hchain)

/-- Closed instance of the C9 theorem: in the run that syncs the fixture
live store at time 5 and then loads `a@x.com` at time 6, the load step does
not decrease any row's `updated_at`. -/
theorem updated_at_monotone_witness :
    rowUpdMono (run parseW [Op.sync 5] ⟨liveW, []⟩).repo
      (step parseW (Op.load "a@x.com" 6)
        (run parseW [Op.sync 5] ⟨liveW, []⟩)).repo :=
  updated_at_monotone parseW ⟨liveW, []⟩ [Op.sync 5] [] (Op.load "a@x.com" 6) 0
    (fun s hs => absurd hs (List.not_mem_nil s))
    (by simp [timesOf, opTimes, List.chain'_cons])

/-! ### The storage invariant -/

theorem getCurrentSession_ok {parse : String → Option String}
    {live : LiveStore} {c : Current}
    (h : getCurrentSession parse live = some c) :
    parse c.auth_status = some c.email := by
  unfold getCurrentSession at h
  cases ha : live.authStatus with
  | none => simp [ha] at h
  | some av =>
    simp only [ha] at h
    cases hp : parse av with
    | none => simp [hp] at h
    | some em =>
      simp only [hp] at h
      by_cases he : em = ""
      · simp [he] at h
      · rw [if_neg he] at h
        cases h
        exact hp

theorem syncCurrent_rowOk (parse : String → Option String) (live : LiveStore)
    (repo : Repo) (now : Nat) (h : ∀ s ∈ repo, RowOk parse s) :
    ∀ s ∈ (syncCurrent parse live repo now).2, RowOk parse s := by
  rcases syncCurrent_repo_cases parse live repo now with
    hr | ⟨c, hc, hex, hr⟩ | ⟨c, hc, hr⟩ <;> rw [hr]
  · exact h
  · intro s hs
    unfold insertNew at hs
    rcases List.mem_append.mp hs with h' | h'
    · exact h s h'
    · rw [List.mem_singleton.mp h']
      exact getCurrentSession_ok hc
  · intro s hs
    unfold updateBlobs at hs
    obtain ⟨s₀, hs₀, rfl⟩ := List.mem_map.mp hs
    by_cases hse : s₀.email = c.email
    · unfold RowOk
      rw [if_pos hse]
      dsimp only
      rw [hse]
      exact getCurrentSession_ok hc
    · unfold RowOk
      rw [if_neg hse]
      exact h s₀ hs₀

theorem loadSession_rowOk {parse : String → Option String} (repo : Repo)
    (live : LiveStore) (e : String) (now : Nat)
    (h : ∀ s ∈ repo, RowOk parse s) :
    ∀ s ∈ (loadSession repo live e now).2.2, RowOk parse s := by
  rcases loadSession_repo_cases repo live e now with hr | hr <;> rw [hr]
  · exact h
  · intro s hs
    obtain ⟨s₀, hs₀, rfl⟩ := List.mem_map.mp hs
    unfold RowOk
    split
    · exact h s₀ hs₀
    · exact h s₀ hs₀

theorem step_rowOk (parse : String → Option String) (op : Op) (st : St)
    (h : ∀ s ∈ st.repo, RowOk parse s) :
    ∀ s ∈ (step parse op st).repo, RowOk parse s := by
  cases op with
  | sync now => exact syncCurrent_rowOk parse st.live st.repo now h
  | load e now => exact loadSession_rowOk st.repo st.live e now h
  | delete e => exact fun s hs => h s (List.mem_of_mem_filter hs)
  | next n₁ n₂ =>
    have h₁ := syncCurrent_rowOk parse st.live st.repo n₁ h
    intro s hs
    have hs' : s ∈ (nextOp parse st.live st.repo n₁ n₂).2 := hs
    rcases nextOp_repo_cases parse st.live st.repo n₁ n₂ with hr | ⟨d, hr⟩ <;>
      rw [hr] at hs'
    · exact h₁ s hs'
    · exact loadSession_rowOk _ st.live d n₂ h₁ s hs'
  | external nlive => exact h

/-- C10: the implicit storage invariant — parsing a row's stored auth blob
yields exactly the row's email primary key — holds of every row after any
sequence of the program's operations when it held initially (in particular
starting from the empty table); it is preserved by the `last_used` touch of
`loadSession` and by `deleteSession`, and it is what makes the round-trip
identity equality of the load/read-back pair hold. -/
theorem stored_rows_parse_to_key (parse : String → Option String) :
    ∀ (ops : List Op) (st : St), (∀ s ∈ st.repo, RowOk parse s) →
      ∀ s ∈ (run parse ops st).repo, RowOk parse s := by
  intro ops
  induction ops with
  | nil => intro st h; exact h
  | cons op ops ih =>
    intro st h
    rw [run_cons]
    exact ih (step parse op st) (step_rowOk parse op st h)

/-- Closed instance of the C10 theorem: the row produced by syncing the
fixture live store and then loading it satisfies the storage invariant. -/
theorem stored_rows_parse_to_key_witness :
    RowOk parseW ⟨"a@x.com", none, "A1", "{}", 6, 5, 5⟩ :=
  stored_rows_parse_to_key parseW [Op.sync 5, Op.load "a@x.com" 6] ⟨liveW, []⟩
    (fun s hs => absurd hs (List.not_mem_nil s)) _ (by decide)

end AGSession
